import Mathlib

/-!
Verification of the `ik` lazy-sequence toolkit (Go package `ik`).

A Go `iter.Seq[T]` is a value `func(yield func(T) bool)`: it drives the
consumer callback `yield` over its elements in order, stopping as soon as
`yield` returns `false`.  The consumers used by this package are stateful
closures; we embed them as explicit state machines `σ → α → σ × Bool`
(new state plus the continue signal), and a sequence as a polymorphic
driver that, given a consumer and an initial state, returns the consumer's
final state.  Each combinator of the package is translated function by
function from the Go source.
-/

namespace ik

variable {α β : Type} {σ σ1 σ2 : Type}

/-- A sequence: the embedding of Go's `iter.Seq[T]` for the sequences built
by this package.  Driving it with a stateful consumer returns the consumer's
final state. -/
def SeqM (α : Type) : Type 1 :=
  (σ : Type) → (σ → α → σ × Bool) → σ → σ

/-- Driving a slice-backed source (`slices.Values` / `for x := range xs`):
each element is handed to the consumer in order; iteration stops right after
the consumer first returns `false`. -/
def drive (yield : σ → α → σ × Bool) : List α → σ → σ
  | [], s => s
  | x :: rest, s =>
    let r := yield s x
    if r.2 then drive yield rest r.1 else r.1

/-- Number of elements a drive presents to the consumer (how far the
backing list is consumed): mirrors `drive`, counting consumer invocations. -/
def driveCount (yield : σ → α → σ × Bool) : List α → σ → Nat
  | [], _ => 0
  | x :: rest, s =>
    let r := yield s x
    if r.2 then driveCount yield rest r.1 + 1 else 1

/-- The restartable sequence over an in-memory list (`slices.Values`). -/
def ofList (xs : List α) : SeqM α :=
  fun _ yield s => drive yield xs s

/-- Reduce: `for x := range s { init = reduce(x, init) }; return init`.
The range loop never asks the producer to stop, so the consumer always
continues. -/
def Reduce (s : SeqM α) (reduce : α → β → β) (init : β) : β :=
  s β (fun b t => (reduce t b, true)) init

/-- CollectInto collects s into a collection using addElement. -/
def CollectInto (s : SeqM α) (collection : β) (addElement : α → β → β) : β :=
  Reduce s addElement collection

/-- Collect s into a slice (append each element to an initially empty slice). -/
def Collect (s : SeqM α) : List α :=
  CollectInto s [] (fun t l => l ++ [t])

/-- The consumer that `Collect` supplies: append and continue. -/
def collectStep : List α → α → List α × Bool :=
  fun l t => (l ++ [t], true)

/-- Consumer of `Take`'s returned sequence, from the Go source:
`i++; if i <= n { return yield(t) } else { return false }` with the
counter `i` carried in the first state component. -/
def takeStep (n : Nat) (yield : σ → α → σ × Bool) : (Nat × σ) → α → (Nat × σ) × Bool :=
  fun p t =>
    if p.1 + 1 ≤ n then ((p.1 + 1, (yield p.2 t).1), (yield p.2 t).2)
    else ((p.1 + 1, p.2), false)

/-- Take the first n values from s. -/
def Take (s : SeqM α) (n : Nat) : SeqM α :=
  fun σ yield st => (s (Nat × σ) (takeStep n yield) (0, st)).2

/-- Consumer of `Skip`'s returned sequence, from the Go source:
`if i < n { i++; return true }; return yield(t)`. -/
def skipStep (n : Nat) (yield : σ → α → σ × Bool) : (Nat × σ) → α → (Nat × σ) × Bool :=
  fun p t =>
    if p.1 < n then ((p.1 + 1, p.2), true)
    else ((p.1, (yield p.2 t).1), (yield p.2 t).2)

/-- Skip the first n values. -/
def Skip (s : SeqM α) (n : Nat) : SeqM α :=
  fun σ yield st => (s (Nat × σ) (skipStep n yield) (0, st)).2

/-- Max, translated literally from the source: state `(t, ok)` starts at the
zero value (`default`) with `ok = false`; on each element,
`if !ok || t > iterT { ok = true; t = iterT }`, and the upstream is always
asked to continue. -/
def Max [LinearOrder α] [Inhabited α] (s : SeqM α) : α × Bool :=
  s (α × Bool)
    (fun p iterT =>
      (if !p.2 || decide (p.1 > iterT) then (iterT, true) else p, true))
    (default, false)

/-- Min, translated literally from the source: same single pass with
`if !ok || t < iterT { ok = true; t = iterT }`. -/
def Min [LinearOrder α] [Inhabited α] (s : SeqM α) : α × Bool :=
  s (α × Bool)
    (fun p iterT =>
      (if !p.2 || decide (p.1 < iterT) then (iterT, true) else p, true))
    (default, false)

/-- Consumer of `Until`'s returned sequence, from the Go source:
`if until(t) { return yield(t) }; return false` — elements on which the
predicate holds are forwarded (with downstream's continuation answer
forwarded upstream), and the first element on which it fails stops the
drive without being forwarded. -/
def untilStep (u : α → Bool) (yield : σ → α → σ × Bool) : σ → α → σ × Bool :=
  fun st t => if u t then yield st t else (st, false)

/-- Until yields values until the predicate returns false. -/
def Until (s : SeqM α) (u : α → Bool) : SeqM α :=
  fun σ yield st => s σ (untilStep u yield) st

/-- Consumer that `Append`'s returned sequence hands to its source: it
invokes the downstream consumer and records the latest continuation answer
(the `cont` closure variable) in the extra Bool state component. -/
def appendStep (yield : σ → α → σ × Bool) : (σ × Bool) → α → (σ × Bool) × Bool :=
  fun p t => (((yield p.1 t).1, (yield p.1 t).2), (yield p.1 t).2)

/-- Append v to s, from the Go source: `var cont bool` (initially false!),
drive `s` recording the latest answer in `cont`, then yield `v` only if
`cont` is true. -/
def Append (v : α) (s : SeqM α) : SeqM α :=
  fun σ yield st =>
    let r := s (σ × Bool) (appendStep yield) (st, false)
    if r.2 then (yield r.1 v).1 else r.1

/-- A collecting consumer that requests a stop upon observing its m-th
element: state is (collected elements, number observed so far). -/
def stopCollect (m : Nat) : (List β × Nat) → β → (List β × Nat) × Bool :=
  fun p t => ((p.1 ++ [t], p.2 + 1), decide (p.2 + 1 < m))

/-- Number of elements pulled from a list-backed source during the
construction phase of `SortedBy` (the statements the Go function runs
before returning the sequence value): the body is
`ret := Collect(s); slices.SortFunc(ret, order); return slices.Values(ret)`,
so construction itself drives `s` to exhaustion with Collect's
always-continue consumer. -/
def sortedByConstructionPulls (xs : List α) : Nat :=
  driveCount collectStep xs []

/-- Number of elements pulled from a list-backed source during the
construction phase of `Sorted`: the body is
`return slices.Values(slices.Sorted(s))`, and `slices.Sorted(s)` collects
every value of `s` into a slice (always continuing) before `Sorted`
returns. -/
def sortedConstructionPulls (xs : List α) : Nat :=
  driveCount collectStep xs []

/-- A consumer that only counts: it requests a stop upon observing its
m-th element (returns true for the first m-1 elements, false on the m-th).
State is the number of elements observed so far. -/
def stopAfter (m : Nat) : Nat → α → Nat × Bool :=
  fun n _ => (n + 1, decide (n + 1 < m))

/-- Consumer that `Tee`'s returned sequence hands to its source, from the
Go source: two flags `continue1`/`continue2` guard the side consumer and
the downstream consumer (`if continue1 { continue1 = yield1(t) }`, same
for yield2), and the upstream is asked to continue while
`continue1 || continue2`. -/
def teeStep (yield1 : σ1 → α → σ1 × Bool) (yield2 : σ2 → α → σ2 × Bool) :
    (σ1 × σ2 × Bool × Bool) → α → (σ1 × σ2 × Bool × Bool) × Bool :=
  fun st t =>
    let r1 := if st.2.2.1 then yield1 st.1 t else (st.1, false)
    let r2 := if st.2.2.2 then yield2 st.2.1 t else (st.2.1, false)
    ((r1.1, r2.1, r1.2, r2.2), r1.2 || r2.2)

/-- Tee the values in s to yield1 (with closure state init1), returning a
new sequence which can be consumed elsewhere.  Both flags start true. -/
def Tee (s : SeqM α) (yield1 : σ1 → α → σ1 × Bool) (init1 : σ1) : SeqM α :=
  fun σ2 yield2 st2 =>
    (s (σ1 × σ2 × Bool × Bool) (teeStep yield1 yield2) (init1, st2, true, true)).2.1

/-- Consumer of `Chunk`'s returned sequence, from the Go source:
`chunk[idx] = t; idx++; if idx == chunkSize { idx = 0; return yield(chunk) };
return true`.  The buffer contents written since the last reset (the first
`idx` slots) are carried as the first state component; a full buffer is
handed to the downstream consumer and the fill position resets. -/
def chunkStep (k : Nat) (yield : σ → List α → σ × Bool) :
    (List α × σ) → α → (List α × σ) × Bool :=
  fun p t =>
    if (p.1 ++ [t]).length = k then
      (([], (yield p.2 (p.1 ++ [t])).1), (yield p.2 (p.1 ++ [t])).2)
    else ((p.1 ++ [t], p.2), true)

/-- Chunk processes s in chunks of size chunkSize; after the source drive
ends, `if idx != 0 { yield(chunk[:idx]) }` yields the final partial chunk.
(The Go function panics when chunkSize < 1; the claims below only concern
k ≥ 1.) -/
def Chunk (s : SeqM α) (k : Nat) : SeqM (List α) :=
  fun σ yield st =>
    let r := s (List α × σ) (chunkStep k yield) ([], st)
    if r.1.length ≠ 0 then (yield r.2 r.1).1 else r.2

/-- Specification-level chunking: group the elements into blocks of k,
with cur the partially filled buffer. -/
def chunksAux (k : Nat) : List α → List α → List (List α)
  | [], cur => if cur.length = 0 then [] else [cur]
  | x :: rest, cur =>
    if (cur ++ [x]).length = k then (cur ++ [x]) :: chunksAux k rest []
    else chunksAux k rest (cur ++ [x])

/-- Consumer embedding the loop body of `IsSortedBy`, from the Go source.
State: the last observed element (lastV.v with its ok flag, as an Option),
the established comparison sign (cmpSign, as an Option), and a flag that is
set when a later comparison's value differs from the established sign — at
that point the Go code returns 0 immediately, embedded here as stopping the
drive with the flag raised. -/
def isSortedStep (order : α → α → Int) :
    (Option α × Option Int × Bool) → α → (Option α × Option Int × Bool) × Bool
  | (none, sg, b), v => ((some v, sg, b), true)
  | (some lv, none, b), v => ((some v, some (order v lv), b), true)
  | (some lv, some sg, b), v =>
    if order v lv ≠ sg then ((some lv, some sg, true), false)
    else ((some v, some sg, b), true)

/-- IsSortedBy returns 1 (ascending), 0 (unsorted) or -1 (descending):
after the loop, `if !lastV.cmpSign.ok { return 1 }; return lastV.cmpSign.sign`,
and 0 if the loop exited early on a sign mismatch. -/
def IsSortedBy (s : SeqM α) (order : α → α → Int) : Int :=
  let r := s (Option α × Option Int × Bool) (isSortedStep order) (none, none, false)
  if r.2.2 then 0
  else
    match r.2.1 with
    | none => 1
    | some sg => sg

/-- cmp.Compare: -1 if a is less than b, +1 if a is greater than b,
0 otherwise. -/
def cmpCompare [LinearOrder α] (a b : α) : Int :=
  if a < b then -1 else if b < a then 1 else 0

/-- IsSorted is IsSortedBy under the default three-way comparison. -/
def IsSorted [LinearOrder α] (s : SeqM α) : Int :=
  IsSortedBy s cmpCompare

/-- Does every adjacent comparison along prev :: l return exactly the
established value sg? -/
def chainSign (order : α → α → Int) (sg : Int) : List α → α → Bool
  | [], _ => true
  | v :: rest, prev =>
    if order v prev = sg then chainSign order sg rest v else false

/-- The ordering classification as the specification describes it: empty
and single-element sequences are 1; otherwise the value of the first
adjacent comparison is the established sign, the verdict is 0 as soon as a
later adjacent comparison differs from it, and otherwise the established
sign itself. -/
def isSortedSpec (order : α → α → Int) : List α → Int
  | [] => 1
  | [_] => 1
  | a :: b :: rest => if chainSign order (order b a) rest b then order b a else 0

theorem take_drive (n : Nat) (xs : List α) : ∀ (i : Nat) (acc : List α),
    (drive (takeStep n collectStep) xs (i, acc)).2 = acc ++ xs.take (n - i) := by
  induction xs with
  | nil => intro i acc; simp [drive]
  | cons x rest ih =>
    intro i acc
    by_cases h : i + 1 ≤ n
    · have hn : n - i = (n - (i + 1)) + 1 := by omega
      simp only [drive, takeStep, collectStep, if_pos h]
      simp only [hn, List.take_succ_cons, if_true]
      rw [ih]
      simp
    · have hn : n - i = 0 := by omega
      simp only [drive, takeStep, collectStep, if_neg h]
      simp [hn]

theorem skip_drive (n : Nat) (xs : List α) : ∀ (j : Nat) (acc : List α),
    (drive (skipStep n collectStep) xs (j, acc)).2 = acc ++ xs.drop (n - j) := by
  induction xs with
  | nil => intro j acc; simp [drive]
  | cons x rest ih =>
    intro j acc
    by_cases h : j < n
    · have hn : n - j = (n - (j + 1)) + 1 := by omega
      simp only [drive, skipStep, collectStep, if_pos h]
      simp only [hn, List.drop_succ_cons, if_true]
      simp only [ih]
    · have hn : n - j = 0 := by omega
      simp only [drive, skipStep, collectStep, if_neg h]
      simp [ih, hn]

theorem collect_take (xs : List α) (n : Nat) :
    Collect (Take (ofList xs) n) = xs.take n := by
  have h := take_drive (α := α) n xs 0 []
  simpa [Collect, CollectInto, Reduce, Take, ofList, collectStep] using h

theorem collect_skip (xs : List α) (n : Nat) :
    Collect (Skip (ofList xs) n) = xs.drop n := by
  have h := skip_drive (α := α) n xs 0 []
  simpa [Collect, CollectInto, Reduce, Skip, ofList, collectStep] using h

/-- Claim C8: for every finite restartable sequence S and every n ≥ 0,
Collect(Take(S, n)) has length min(n, |S|) and equals the first
min(n, |S|) elements of S in order, and Collect(Take(S, n)) ++
Collect(Skip(S, n)) reconstructs S exactly. -/
theorem C8_take_skip (α : Type) (xs : List α) (n : Nat) :
    Collect (Take (ofList xs) n) = xs.take n
    ∧ (Collect (Take (ofList xs) n)).length = min n xs.length
    ∧ Collect (Take (ofList xs) n) ++ Collect (Skip (ofList xs) n) = xs := by
  refine ⟨collect_take xs n, ?_, ?_⟩
  · rw [collect_take]; exact List.length_take n xs
  · rw [collect_take, collect_skip]; exact List.take_append_drop n xs

/-- Claim C1 evaluated on the code: the comparisons in `Max` and `Min` are
reversed (`t > iterT` replaces the running best in `Max`, `t < iterT` in
`Min`), so on `[-1, 190, -3]` the code's `Max` returns the minimum
`(-3, true)` and its `Min` returns the maximum `(190, true)` — the opposite
of what the claim (and the functions' own doc comments) state.  On the
empty sequence both do return `(zero-value, false)`. -/
theorem C1_min_max_behavior :
    Max (ofList [(-1 : Int), 190, -3]) = (-3, true)
    ∧ Min (ofList [(-1 : Int), 190, -3]) = (190, true)
    ∧ Max (ofList [(-1 : Int), 190, -3]) ≠ (190, true)
    ∧ Min (ofList [(-1 : Int), 190, -3]) ≠ (-3, true)
    ∧ Max (ofList ([] : List Int)) = (0, false)
    ∧ Min (ofList ([] : List Int)) = (0, false) := by
  refine ⟨?_, ?_, ?_, ?_, ?_, ?_⟩ <;> decide

theorem until_drive (u : α → Bool) (xs : List α) : ∀ acc : List α,
    drive (untilStep u collectStep) xs acc = acc ++ xs.takeWhile u := by
  induction xs with
  | nil => intro acc; simp [drive]
  | cons x rest ih =>
    intro acc
    by_cases h : u x
    · simp only [drive, untilStep, collectStep, if_pos h, if_true]
      rw [ih]
      simp [List.takeWhile_cons, h]
    · simp only [drive, untilStep, collectStep, if_neg h]
      simp [List.takeWhile_cons, h]

theorem until_driveCount (u : α → Bool) (xs : List α) : ∀ acc : List α,
    driveCount (untilStep u collectStep) xs acc
      = min xs.length ((xs.takeWhile u).length + 1) := by
  induction xs with
  | nil => intro acc; simp [driveCount]
  | cons x rest ih =>
    intro acc
    by_cases h : u x
    · simp only [driveCount, untilStep, collectStep, if_pos h, if_true]
      rw [ih]
      simp only [List.takeWhile_cons, h, if_true, List.length_cons]
      omega
    · simp only [driveCount, untilStep, collectStep, if_neg h]
      simp [List.takeWhile_cons, h]

/-- Counterexample to claim C3: with stop-predicate "the element is at
least 2" (so the continue predicate handed to `Until` is `t < 2`), the
source `[1, 2, 3]` produces only `[1]`: the triggering element `2` is not
forwarded to the downstream consumer, while the claim requires the output
`[1, 2]`. -/
theorem C3_counterexample :
    Collect (Until (ofList [(1 : Int), 2, 3]) (fun t => decide (t < 2))) = [1]
    ∧ ([1] : List Int) ≠ [1, 2] := by
  constructor <;> decide

/-- Claim C3 as amended: `Until` forwards each element on which the
continue-predicate `u` (the negation of the stop-predicate) is true,
forwarding downstream's continuation answer, and on the first element where
`u` is false it stops immediately WITHOUT forwarding that triggering
element; a full consumption therefore collects exactly `takeWhile u`, and
the upstream is driven for `min |S| (|takeWhile u S| + 1)` elements (the
triggering element is observed but not forwarded). -/
theorem C3_until_amended (α : Type) (xs : List α) (u : α → Bool) :
    Collect (Until (ofList xs) u) = xs.takeWhile u
    ∧ driveCount (untilStep u collectStep) xs []
        = min xs.length ((xs.takeWhile u).length + 1) := by
  constructor
  · have h := until_drive u xs []
    simpa [Collect, CollectInto, Reduce, Until, ofList, collectStep] using h
  · exact until_driveCount u xs []

theorem append_collect_drive (xs : List α) : ∀ (acc : List α) (c0 : Bool),
    drive (appendStep collectStep) xs (acc, c0)
      = (acc ++ xs, if xs.isEmpty then c0 else true) := by
  induction xs with
  | nil => intro acc c0; simp [drive]
  | cons x rest ih =>
    intro acc c0
    simp only [drive, appendStep, collectStep]
    simp [ih]

theorem append_stop_drive (m : Nat) (xs : List α) : ∀ (acc : List α) (n : Nat) (c0 : Bool),
    n < m → m ≤ n + xs.length →
    drive (appendStep (stopCollect m)) xs ((acc, n), c0)
      = ((acc ++ xs.take (m - n), m), false) := by
  induction xs with
  | nil => intro acc n c0 h1 h2; simp at h2; omega
  | cons x rest ih =>
    intro acc n c0 h1 h2
    by_cases hc : n + 1 < m
    · have hd : decide (n + 1 < m) = true := by simp [hc]
      have hm : m - n = (m - (n + 1)) + 1 := by omega
      simp only [drive, appendStep, stopCollect, hd]
      simp only [if_true, hm, List.take_succ_cons]
      rw [ih (acc ++ [x]) (n + 1) true hc (by simp at h2 ⊢; omega)]
      simp
    · have hm : m = n + 1 := by omega
      have hd : decide (n + 1 < m) = false := by simp [hc]
      simp only [drive, appendStep, stopCollect, hd]
      simp [hm]

/-- Counterexample to claim C2: on the empty source the `cont` flag keeps
its zero value `false`, so `Append(7, [])` yields nothing — not `[7]` as
the claim ("including when S is empty, where it yields just v") requires. -/
theorem C2_counterexample :
    Collect (Append (7 : Int) (ofList [])) = []
    ∧ Collect (Append (7 : Int) (ofList [])) ≠ [7] := by
  constructor <;> decide

/-- Claim C2 as amended: driving Append(v, S) with a consumer that always
continues yields S's elements in order followed by v when S is NONEMPTY;
when S is empty nothing at all is yielded (the `cont` flag starts false).
If the consumer returns false upon observing its m-th element with
m ≤ |S| (i.e. before or exactly when S is exhausted), v is never yielded:
the consumer receives exactly the first m elements of S. -/
theorem C2_append_amended (xs : List Int) (v : Int) :
    Collect (Append v (ofList xs)) = (if xs = [] then [] else xs ++ [v])
    ∧ (∀ m : Nat, 1 ≤ m → m ≤ xs.length →
        (Append v (ofList xs)) (List Int × Nat) (stopCollect m) ([], 0)
          = (xs.take m, m)) := by
  constructor
  · have h := append_collect_drive (α := Int) xs [] false
    simp only [Collect, CollectInto, Reduce, Append, ofList]
    rw [show (fun (b : List Int) (t : Int) => (b ++ [t], true))
          = (collectStep : List Int → Int → List Int × Bool) from rfl]
    rw [h]
    cases xs <;> simp
  · intro m h1 h2
    have h := append_stop_drive (α := Int) m xs [] 0 false h1 (by omega)
    simp only [Append, ofList]
    rw [h]
    simp

/-- Witness for C2: with source [10, 20, 30] and a consumer stopping on its
2nd element, the appended value is never yielded: the consumer receives
exactly [10, 20]. -/
theorem C2_append_amended_witness :
    (Append (7 : Int) (ofList [10, 20, 30])) (List Int × Nat) (stopCollect 2) ([], 0)
      = ([10, 20], 2) :=
  (C2_append_amended [10, 20, 30] 7).2 2 (by decide) (by decide)

theorem collect_driveCount (xs : List α) : ∀ acc : List α,
    driveCount collectStep xs acc = xs.length := by
  induction xs with
  | nil => intro acc; simp [driveCount]
  | cons x rest ih => intro acc; simp [driveCount, collectStep, ih]

/-- Counterexample to claim C4: constructing SortedBy (or Sorted) over the
one-element source [1] already pulls that element from the source — the
construction phase consumes 1 element, not 0 as the claim requires. -/
theorem C4_counterexample :
    sortedByConstructionPulls [(1 : Int)] = 1
    ∧ sortedConstructionPulls [(1 : Int)] = 1
    ∧ (1 : Nat) ≠ 0 := by
  refine ⟨?_, ?_, ?_⟩ <;> decide

/-- Claim C4 as amended: constructing Sorted(S) or SortedBy(S, order) fully
consumes the underlying source S at combinator-build time (it pulls exactly
|S| elements before the sequence value is even returned); the sort is
eager in construction, not lazy until the first drive. -/
theorem C4_sorted_eager (α : Type) (xs : List α) :
    sortedByConstructionPulls xs = xs.length
    ∧ sortedConstructionPulls xs = xs.length :=
  ⟨collect_driveCount xs [], collect_driveCount xs []⟩

theorem teeStep_norm (a b : Nat) (n1 n2 : Nat) (t : α) :
    teeStep (stopAfter a) (stopAfter b)
        ((n1, n2, decide (n1 < a), decide (n2 < b)) : Nat × Nat × Bool × Bool) t
      = ((if n1 < a then n1 + 1 else n1, if n2 < b then n2 + 1 else n2,
          decide ((if n1 < a then n1 + 1 else n1) < a),
          decide ((if n2 < b then n2 + 1 else n2) < b)),
         decide ((if n1 < a then n1 + 1 else n1) < a)
           || decide ((if n2 < b then n2 + 1 else n2) < b)) := by
  by_cases hc1 : n1 < a <;> by_cases hc2 : n2 < b <;>
    simp [teeStep, stopAfter, hc1, hc2]

theorem tee_drive_inv (a b : Nat) (xs : List α) : ∀ n1 n2 : Nat, n1 ≤ a → n2 ≤ b →
    drive (teeStep (stopAfter a) (stopAfter b)) xs
        (n1, n2, decide (n1 < a), decide (n2 < b))
      = (min a (n1 + xs.length), min b (n2 + xs.length),
         decide (min a (n1 + xs.length) < a), decide (min b (n2 + xs.length) < b)) := by
  induction xs with
  | nil =>
    intro n1 n2 h1 h2
    have e1 : min a (n1 + List.length ([] : List α)) = n1 := by simp; omega
    have e2 : min b (n2 + List.length ([] : List α)) = n2 := by simp; omega
    rw [e1, e2]
    simp [drive]
  | cons x rest ih =>
    intro n1 n2 h1 h2
    have hk1 : (if n1 < a then n1 + 1 else n1) ≤ a := by split <;> omega
    have hk2 : (if n2 < b then n2 + 1 else n2) ≤ b := by split <;> omega
    simp only [drive]
    rw [teeStep_norm]
    dsimp only
    rw [ih _ _ hk1 hk2]
    by_cases hcont : ((if n1 < a then n1 + 1 else n1) < a
        ∨ (if n2 < b then n2 + 1 else n2) < b)
    · rw [if_pos (by simpa using hcont)]
      have e1 : min a ((if n1 < a then n1 + 1 else n1) + rest.length)
          = min a (n1 + (x :: rest).length) := by
        simp only [List.length_cons]; split <;> omega
      have e2 : min b ((if n2 < b then n2 + 1 else n2) + rest.length)
          = min b (n2 + (x :: rest).length) := by
        simp only [List.length_cons]; split <;> omega
      rw [e1, e2]
    · rw [if_neg (by simpa using hcont)]
      have hx1 : ¬ (if n1 < a then n1 + 1 else n1) < a := fun h => hcont (Or.inl h)
      have hx2 : ¬ (if n2 < b then n2 + 1 else n2) < b := fun h => hcont (Or.inr h)
      have f1 : min a (n1 + (x :: rest).length) = (if n1 < a then n1 + 1 else n1) := by
        by_cases hc1 : n1 < a <;> simp [hc1, List.length_cons] at hx1 ⊢ <;> omega
      have f2 : min b (n2 + (x :: rest).length) = (if n2 < b then n2 + 1 else n2) := by
        by_cases hc2 : n2 < b <;> simp [hc2, List.length_cons] at hx2 ⊢ <;> omega
      rw [f1, f2]

theorem tee_driveCount_inv (a b : Nat) (xs : List α) :
    ∀ n1 n2 : Nat, n1 ≤ a → n2 ≤ b → (n1 < a ∨ n2 < b) →
    driveCount (teeStep (stopAfter a) (stopAfter b)) xs
        (n1, n2, decide (n1 < a), decide (n2 < b))
      = min (max (a - n1) (b - n2)) xs.length := by
  induction xs with
  | nil => intro n1 n2 h1 h2 h3; simp [driveCount]
  | cons x rest ih =>
    intro n1 n2 h1 h2 h3
    have hk1 : (if n1 < a then n1 + 1 else n1) ≤ a := by split <;> omega
    have hk2 : (if n2 < b then n2 + 1 else n2) ≤ b := by split <;> omega
    simp only [driveCount]
    rw [teeStep_norm]
    dsimp only
    by_cases hcont : ((if n1 < a then n1 + 1 else n1) < a
        ∨ (if n2 < b then n2 + 1 else n2) < b)
    · rw [if_pos (by simpa using hcont)]
      rw [ih _ _ hk1 hk2 hcont]
      by_cases hc1 : n1 < a <;> by_cases hc2 : n2 < b <;>
        simp only [hc1, hc2, if_true, if_false, List.length_cons] at hcont ⊢ <;>
        omega
    · rw [if_neg (by simpa using hcont)]
      have hx1 : ¬ (if n1 < a then n1 + 1 else n1) < a := fun h => hcont (Or.inl h)
      have hx2 : ¬ (if n2 < b then n2 + 1 else n2) < b := fun h => hcont (Or.inr h)
      by_cases hc1 : n1 < a <;> by_cases hc2 : n2 < b <;>
        simp only [hc1, hc2, if_true, if_false, List.length_cons] at hx1 hx2 ⊢ <;>
        omega

/-- Claim C5: for a source of N elements, a side consumer stopping after
observing a elements and a downstream consumer stopping after observing b
elements (a, b ≥ 1, since a consumer cannot stop "after 0 observations"),
Tee drives the upstream for exactly min(max(a, b), N) elements, delivers
exactly min(a, N) elements to the side consumer and min(b, N) to the
downstream consumer; moreover the upstream continue signal is always the
logical OR of the two updated flags, and a consumer whose flag is already
false is never invoked again (its state and flag pass through unchanged). -/
theorem C5_tee (xs : List Int) (a b : Nat) (ha : 1 ≤ a) (hb : 1 ≤ b) :
    driveCount (teeStep (stopAfter a) (stopAfter b)) xs (0, 0, true, true)
        = min (max a b) xs.length
    ∧ (drive (teeStep (stopAfter a) (stopAfter b)) xs (0, 0, true, true)).1
        = min a xs.length
    ∧ Tee (ofList xs) (stopAfter a) 0 Nat (stopAfter b) 0 = min b xs.length
    ∧ (∀ (σ1 σ2 : Type) (y1 : σ1 → Int → σ1 × Bool) (y2 : σ2 → Int → σ2 × Bool)
         (st : σ1 × σ2 × Bool × Bool) (t : Int),
        (teeStep y1 y2 st t).2
            = ((teeStep y1 y2 st t).1.2.2.1 || (teeStep y1 y2 st t).1.2.2.2)
        ∧ (st.2.2.1 = false →
            (teeStep y1 y2 st t).1.1 = st.1 ∧ (teeStep y1 y2 st t).1.2.2.1 = false)
        ∧ (st.2.2.2 = false →
            (teeStep y1 y2 st t).1.2.1 = st.2.1 ∧ (teeStep y1 y2 st t).1.2.2.2 = false)) := by
  have da : (true : Bool) = decide (0 < a) := (decide_eq_true (show 0 < a by omega)).symm
  have db : (true : Bool) = decide (0 < b) := (decide_eq_true (show 0 < b by omega)).symm
  have hst : ((0, 0, true, true) : Nat × Nat × Bool × Bool)
      = (0, 0, decide (0 < a), decide (0 < b)) := by rw [← da, ← db]
  refine ⟨?_, ?_, ?_, ?_⟩
  · rw [hst, tee_driveCount_inv a b xs 0 0 (by omega) (by omega) (by omega)]
    simp
  · rw [hst, tee_drive_inv a b xs 0 0 (by omega) (by omega)]
    simp
  · show (drive (teeStep (stopAfter a) (stopAfter b)) xs (0, 0, true, true)).2.1
        = min b xs.length
    rw [hst, tee_drive_inv a b xs 0 0 (by omega) (by omega)]
    simp
  · intro σ1 σ2 y1 y2 st t
    refine ⟨rfl, ?_, ?_⟩
    · intro h; simp [teeStep, h]
    · intro h; simp [teeStep, h]

/-- Witness for C5: on a 5-element source with the side consumer stopping
after 2 observations and the downstream consumer after 4, the downstream
consumer receives exactly 4 elements. -/
theorem C5_tee_witness :
    Tee (ofList [(10 : Int), 20, 30, 40, 50]) (stopAfter 2) 0 Nat (stopAfter 4) 0 = 4 :=
  (C5_tee [10, 20, 30, 40, 50] 2 4 (by decide) (by decide)).2.2.1

theorem chunk_drive_collect (k : Nat) (xs : List α) :
    ∀ (cur : List α) (acc : List (List α)),
    (if (drive (chunkStep k collectStep) xs (cur, acc)).1.length ≠ 0
     then (drive (chunkStep k collectStep) xs (cur, acc)).2
            ++ [(drive (chunkStep k collectStep) xs (cur, acc)).1]
     else (drive (chunkStep k collectStep) xs (cur, acc)).2)
    = acc ++ chunksAux k xs cur := by
  induction xs with
  | nil =>
    intro cur acc
    by_cases hc : cur.length = 0 <;> simp [drive, chunksAux, hc]
  | cons x rest ih =>
    intro cur acc
    by_cases hf : (cur ++ [x]).length = k
    · simp only [drive, chunkStep, collectStep, if_pos hf, chunksAux]
      simp only [if_true]
      rw [ih [] (acc ++ [cur ++ [x]])]
      simp
    · simp only [drive, chunkStep, collectStep, if_neg hf, chunksAux]
      simp only [if_true]
      rw [ih (cur ++ [x]) acc]

theorem collect_chunk (k : Nat) (xs : List α) :
    Collect (Chunk (ofList xs) k) = chunksAux k xs [] := by
  have h := chunk_drive_collect k xs [] []
  simp only [Collect, CollectInto, Reduce, Chunk, ofList]
  rw [show (fun (b : List (List α)) (t : List α) => (b ++ [t], true))
        = (collectStep : List (List α) → List α → List (List α) × Bool) from rfl]
  simpa [collectStep] using h

theorem chunksAux_flatten (k : Nat) (xs : List α) :
    ∀ cur : List α, (chunksAux k xs cur).flatten = cur ++ xs := by
  induction xs with
  | nil =>
    intro cur
    by_cases hc : cur.length = 0
    · simp [chunksAux, hc, List.length_eq_zero.mp hc]
    · simp [chunksAux, hc]
  | cons x rest ih =>
    intro cur
    by_cases hf : (cur ++ [x]).length = k
    · have hf1 : cur.length + 1 = k := by simpa using hf
      simp [chunksAux, hf1, ih]
    · have hf1 : ¬(cur.length + 1 = k) := by simpa using hf
      simp [chunksAux, hf1, ih]

theorem chunksAux_length (k : Nat) (hk : 1 ≤ k) (xs : List α) :
    ∀ cur : List α, cur.length < k →
    (chunksAux k xs cur).length = (cur.length + xs.length + k - 1) / k := by
  induction xs with
  | nil =>
    intro cur hc
    by_cases h0 : cur.length = 0
    · simp only [chunksAux, if_pos h0, List.length_nil, h0]
      rw [Nat.div_eq_of_lt (by omega)]
      rfl
    · simp only [chunksAux, if_neg h0, List.length_nil]
      have e : cur.length + 0 + k - 1 = (cur.length - 1) + k := by omega
      rw [e, Nat.add_div_right _ (by omega), Nat.div_eq_of_lt (by omega)]
      rfl
  | cons x rest ih =>
    intro cur hc
    by_cases hf : (cur ++ [x]).length = k
    · have hf1 : cur.length + 1 = k := by simpa using hf
      simp only [chunksAux, if_pos hf, List.length_cons]
      rw [ih [] (by simp; omega)]
      have e : cur.length + (rest.length + 1) + k - 1
          = (List.length ([] : List α) + rest.length + k - 1) + k := by simp; omega
      rw [e, Nat.add_div_right _ (by omega)]
    · have hf1 : cur.length + 1 ≠ k := by simpa using hf
      simp only [chunksAux, if_neg hf, List.length_cons]
      rw [ih (cur ++ [x]) (by simp; omega)]
      have e : (cur ++ [x]).length + rest.length + k - 1
          = cur.length + (rest.length + 1) + k - 1 := by simp; omega
      rw [e]

theorem chunksAux_dropLast (k : Nat) (xs : List α) :
    ∀ cur : List α, ∀ c ∈ (chunksAux k xs cur).dropLast, c.length = k := by
  induction xs with
  | nil =>
    intro cur c hc
    by_cases h0 : cur.length = 0 <;> simp [chunksAux, h0] at hc
  | cons x rest ih =>
    intro cur c hc
    by_cases hf : (cur ++ [x]).length = k
    · simp only [chunksAux, if_pos hf] at hc
      cases hL : chunksAux k rest [] with
      | nil => rw [hL] at hc; simp at hc
      | cons y l =>
        rw [hL, List.dropLast_cons₂] at hc
        rcases List.mem_cons.mp hc with h | h
        · rw [h]; exact hf
        · exact ih [] c (by rw [hL]; exact h)
    · simp only [chunksAux, if_neg hf] at hc
      exact ih (cur ++ [x]) c hc

theorem chunksAux_ne_nil (k : Nat) (xs : List α) :
    ∀ cur : List α, cur.length ≠ 0 ∨ xs ≠ [] → chunksAux k xs cur ≠ [] := by
  induction xs with
  | nil =>
    intro cur h
    have h0 : cur.length ≠ 0 := h.resolve_right (by simp)
    simp [chunksAux, h0]
  | cons x rest ih =>
    intro cur h
    by_cases hf : (cur ++ [x]).length = k
    · simp [chunksAux, hf]
    · simp only [chunksAux, if_neg hf]
      exact ih (cur ++ [x]) (Or.inl (by simp))

theorem getLastD_congr (l : List β) (d1 d2 : β) (h : l ≠ []) :
    l.getLastD d1 = l.getLastD d2 := by
  cases l with
  | nil => simp at h
  | cons a t => rw [List.getLastD_cons d1 a t, List.getLastD_cons d2 a t]

theorem chunksAux_getLast (k : Nat) (hk : 1 ≤ k) (xs : List α) :
    ∀ cur : List α, cur.length < k → (cur.length ≠ 0 ∨ xs ≠ []) →
    ((chunksAux k xs cur).getLastD []).length
      = if (cur.length + xs.length) % k = 0 then k else (cur.length + xs.length) % k := by
  induction xs with
  | nil =>
    intro cur hc h
    have h0 : cur.length ≠ 0 := h.resolve_right (by simp)
    simp only [chunksAux, if_neg h0, List.length_nil, Nat.add_zero]
    rw [Nat.mod_eq_of_lt hc, if_neg h0]
    simp [List.getLastD]
  | cons x rest ih =>
    intro cur hc h
    by_cases hf : (cur ++ [x]).length = k
    · have hf1 : cur.length + 1 = k := by simpa using hf
      simp only [chunksAux, if_pos hf]
      rw [List.getLastD_cons [] (cur ++ [x]) (chunksAux k rest [])]
      by_cases hrest : rest = []
      · subst hrest
        simp [chunksAux, hf1]
      · have hne : chunksAux k rest [] ≠ [] := chunksAux_ne_nil k rest [] (Or.inr hrest)
        rw [getLastD_congr _ _ [] hne]
        rw [ih [] (by simp; omega) (Or.inr hrest)]
        have e : cur.length + (x :: rest).length = rest.length + k := by simp; omega
        rw [e, Nat.add_mod_right]
        simp
    · have hf1 : cur.length + 1 ≠ k := by simpa using hf
      simp only [chunksAux, if_neg hf]
      rw [ih (cur ++ [x]) (by simp; omega) (Or.inl (by simp))]
      have e : (cur ++ [x]).length + rest.length = cur.length + (x :: rest).length := by
        simp; omega
      rw [e]

/-- Claim C6: for every finite sequence S of length L and chunk size k ≥ 1,
fully consuming Chunk(S, k) yields exactly ceil(L / k) = (L + k - 1) / k
chunks (0 when L = 0); every chunk except possibly the last has length k;
the last has length L mod k (or k when L is a nonzero multiple of k); and
concatenating the yielded chunk contents reconstructs S exactly. -/
theorem C6_chunk (xs : List Int) (k : Nat) (hk : 1 ≤ k) :
    (Collect (Chunk (ofList xs) k)).flatten = xs
    ∧ (Collect (Chunk (ofList xs) k)).length = (xs.length + k - 1) / k
    ∧ (∀ c ∈ (Collect (Chunk (ofList xs) k)).dropLast, c.length = k)
    ∧ (xs ≠ [] →
        ((Collect (Chunk (ofList xs) k)).getLastD []).length
          = if xs.length % k = 0 then k else xs.length % k) := by
  rw [collect_chunk k xs]
  refine ⟨?_, ?_, ?_, ?_⟩
  · rw [chunksAux_flatten k xs []]; rfl
  · rw [chunksAux_length k hk xs [] (by simp; omega)]; simp
  · exact chunksAux_dropLast k xs []
  · intro hne
    rw [chunksAux_getLast k hk xs [] (by simp; omega) (Or.inr hne)]
    simp

/-- Witness for C6: chunking [1, 2, 3] with k = 2 yields chunks whose
concatenation is [1, 2, 3], there are 2 of them, every non-final chunk has
length 2, and the final (partial) chunk has length 1. -/
theorem C6_chunk_witness :
    (Collect (Chunk (ofList [(1 : Int), 2, 3]) 2)).flatten = [1, 2, 3]
    ∧ (Collect (Chunk (ofList [(1 : Int), 2, 3]) 2)).length = 2
    ∧ (∀ c ∈ (Collect (Chunk (ofList [(1 : Int), 2, 3]) 2)).dropLast, c.length = 2)
    ∧ ((Collect (Chunk (ofList [(1 : Int), 2, 3]) 2)).getLastD []).length = 1 := by
  have h := C6_chunk [1, 2, 3] 2 (by decide)
  exact ⟨h.1, h.2.1, h.2.2.1, h.2.2.2 (by decide)⟩

theorem chunk_stop_inv (k m : Nat) (hk : 1 ≤ k) (xs : List α) :
    ∀ (cur : List α) (acc : List (List α)) (n : Nat),
    cur.length < k → n < m → (m - n) * k ≤ cur.length + xs.length →
    (drive (chunkStep k (stopCollect m)) xs (cur, (acc, n))).1 = []
    ∧ (drive (chunkStep k (stopCollect m)) xs (cur, (acc, n))).2.2 = m
    ∧ (drive (chunkStep k (stopCollect m)) xs (cur, (acc, n))).2.1.length
        = acc.length + (m - n)
    ∧ driveCount (chunkStep k (stopCollect m)) xs (cur, (acc, n))
        = (m - n) * k - cur.length := by
  induction xs with
  | nil =>
    intro cur acc n hc hn hle
    exfalso
    have hkk : 1 * k ≤ (m - n) * k := Nat.mul_le_mul_right k (by omega)
    simp at hle hkk
    omega
  | cons x rest ih =>
    intro cur acc n hc hn hle
    have hkk : 1 * k ≤ (m - n) * k := Nat.mul_le_mul_right k (by omega)
    rw [Nat.one_mul] at hkk
    by_cases hf : (cur ++ [x]).length = k
    · have hf1 : cur.length + 1 = k := by simpa using hf
      have hstep : chunkStep k (stopCollect m) (cur, (acc, n)) x
          = (([], (acc ++ [cur ++ [x]], n + 1)), decide (n + 1 < m)) := by
        simp [chunkStep, stopCollect, hf]
      by_cases hnm : n + 1 < m
      · have hdrive : drive (chunkStep k (stopCollect m)) (x :: rest) (cur, (acc, n))
            = drive (chunkStep k (stopCollect m)) rest ([], (acc ++ [cur ++ [x]], n + 1)) := by
          simp only [drive, hstep]
          simp [hnm]
        have hcount : driveCount (chunkStep k (stopCollect m)) (x :: rest) (cur, (acc, n))
            = driveCount (chunkStep k (stopCollect m)) rest
                ([], (acc ++ [cur ++ [x]], n + 1)) + 1 := by
          simp only [driveCount, hstep]
          simp [hnm]
        have hp : (m - n) * k = (m - (n + 1)) * k + k := by
          have e : m - n = (m - (n + 1)) + 1 := by omega
          rw [e, Nat.succ_mul]
        have hle1 : (m - (n + 1)) * k ≤ List.length ([] : List α) + rest.length := by
          simp only [List.length_cons] at hle
          simp only [List.length_nil]
          omega
        obtain ⟨ih1, ih2, ih3, ih4⟩ :=
          ih [] (acc ++ [cur ++ [x]]) (n + 1) (by simpa using hk) hnm hle1
        rw [hdrive, hcount]
        refine ⟨ih1, ih2, ?_, ?_⟩
        · rw [ih3]; simp; omega
        · rw [ih4]; simp; omega
      · have hm2 : n + 1 = m := by omega
        have hdrive : drive (chunkStep k (stopCollect m)) (x :: rest) (cur, (acc, n))
            = ([], (acc ++ [cur ++ [x]], n + 1)) := by
          simp only [drive, hstep]
          simp [hnm]
        have hcount : driveCount (chunkStep k (stopCollect m)) (x :: rest)
            (cur, (acc, n)) = 1 := by
          simp only [driveCount, hstep]
          simp [hnm]
        rw [hdrive, hcount]
        have hq : (m - n) * k = k := by
          have e : m - n = 1 := by omega
          rw [e, Nat.one_mul]
        refine ⟨rfl, by simpa using hm2, ?_, ?_⟩
        · simp; omega
        · omega
    · have hf1 : cur.length + 1 ≠ k := by simpa using hf
      have hstep : chunkStep k (stopCollect m) (cur, (acc, n)) x
          = ((cur ++ [x], (acc, n)), true) := by
        simp [chunkStep, hf1]
      have hdrive : drive (chunkStep k (stopCollect m)) (x :: rest) (cur, (acc, n))
          = drive (chunkStep k (stopCollect m)) rest (cur ++ [x], (acc, n)) := by
        simp only [drive, hstep]
        simp
      have hcount : driveCount (chunkStep k (stopCollect m)) (x :: rest) (cur, (acc, n))
          = driveCount (chunkStep k (stopCollect m)) rest (cur ++ [x], (acc, n)) + 1 := by
        simp only [driveCount, hstep]
        simp
      have hle1 : (m - n) * k ≤ (cur ++ [x]).length + rest.length := by
        simp only [List.length_cons] at hle
        simp only [List.length_append, List.length_singleton]
        omega
      obtain ⟨ih1, ih2, ih3, ih4⟩ :=
        ih (cur ++ [x]) acc n (by simp; omega) hn hle1
      rw [hdrive, hcount]
      refine ⟨ih1, ih2, ih3, ?_⟩
      rw [ih4]
      simp only [List.length_append, List.length_singleton]
      omega

/-- Claim C7: for chunk size k ≥ 1, when the downstream consumer returns
false on a yielded chunk (here: it stops upon observing its m-th chunk,
which the hypothesis m * k ≤ L guarantees actually happens), Chunk pulls
exactly m * k elements from upstream (no further ones) and delivers exactly
the m full chunks — no subsequent chunk and, in particular, no partial
final chunk (the buffer is empty at the stop, so the final partial-yield
step does nothing). -/
theorem C7_chunk_stop (xs : List Int) (k m : Nat) (hk : 1 ≤ k) (hm : 1 ≤ m)
    (hstop : m * k ≤ xs.length) :
    ((Chunk (ofList xs) k) (List (List Int) × Nat) (stopCollect m) ([], 0)).1.length = m
    ∧ ((Chunk (ofList xs) k) (List (List Int) × Nat) (stopCollect m) ([], 0)).2 = m
    ∧ (drive (chunkStep k (stopCollect m)) xs ([], ([], 0))).1 = []
    ∧ driveCount (chunkStep k (stopCollect m)) xs ([], ([], 0)) = m * k := by
  obtain ⟨i1, i2, i3, i4⟩ := chunk_stop_inv k m hk xs [] [] 0
    (by simpa using hk) (by omega) (by simpa using hstop)
  refine ⟨?_, ?_, i1, by simpa using i4⟩
  · simp only [Chunk, ofList]
    rw [if_neg (show ¬((drive (chunkStep k (stopCollect m)) xs
        ([], ([], 0))).1.length ≠ 0) by rw [i1]; simp)]
    rw [i3]
    simp
  · simp only [Chunk, ofList]
    rw [if_neg (show ¬((drive (chunkStep k (stopCollect m)) xs
        ([], ([], 0))).1.length ≠ 0) by rw [i1]; simp)]
    exact i2

/-- Witness for C7: on the 5-element source [1, 2, 3, 4, 5] with k = 2 and
a downstream consumer stopping on its 2nd chunk, exactly 4 elements are
pulled from upstream and exactly 2 chunks are delivered. -/
theorem C7_chunk_stop_witness :
    ((Chunk (ofList [(1 : Int), 2, 3, 4, 5]) 2) (List (List Int) × Nat)
        (stopCollect 2) ([], 0)).1.length = 2
    ∧ driveCount (chunkStep 2 (stopCollect 2)) [(1 : Int), 2, 3, 4, 5] ([], ([], 0)) = 4 := by
  have h := C7_chunk_stop [1, 2, 3, 4, 5] 2 2 (by decide) (by decide) (by decide)
  exact ⟨h.1, h.2.2.2⟩

theorem isSortedBy_aux (order : α → α → Int) (rest : List α) :
    ∀ (prev : α) (sg : Int),
    (if (drive (isSortedStep order) rest (some prev, some sg, false)).2.2 then 0
     else
       match (drive (isSortedStep order) rest (some prev, some sg, false)).2.1 with
       | none => 1
       | some s => s)
      = (if chainSign order sg rest prev then sg else 0) := by
  induction rest with
  | nil => intro prev sg; simp [drive, chainSign]
  | cons v rest ih =>
    intro prev sg
    by_cases h : order v prev = sg
    · have hstep : isSortedStep order (some prev, some sg, false) v
          = ((some v, some sg, false), true) := by
        simp [isSortedStep, h]
      have hdrive : drive (isSortedStep order) (v :: rest) (some prev, some sg, false)
          = drive (isSortedStep order) rest (some v, some sg, false) := by
        simp only [drive, hstep]
        simp
      rw [hdrive, ih v sg]
      simp [chainSign, h]
    · have hstep : isSortedStep order (some prev, some sg, false) v
          = ((some prev, some sg, true), false) := by
        simp [isSortedStep, h]
      have hdrive : drive (isSortedStep order) (v :: rest) (some prev, some sg, false)
          = (some prev, some sg, true) := by
        simp only [drive, hstep]
        simp
      rw [hdrive]
      simp [chainSign, h]

theorem isSortedBy_eq_spec (order : α → α → Int) (xs : List α) :
    IsSortedBy (ofList xs) order = isSortedSpec order xs := by
  cases xs with
  | nil => simp [IsSortedBy, ofList, drive, isSortedSpec]
  | cons a t =>
    cases t with
    | nil => simp [IsSortedBy, ofList, drive, isSortedStep, isSortedSpec]
    | cons b rest =>
      have h1 : isSortedStep order (none, none, false) a
          = ((some a, none, false), true) := rfl
      have h2 : isSortedStep order (some a, none, false) b
          = ((some b, some (order b a), false), true) := rfl
      have hdrive : drive (isSortedStep order) (a :: b :: rest) (none, none, false)
          = drive (isSortedStep order) rest (some b, some (order b a), false) := by
        simp only [drive, h1, h2]
        simp
      simp only [IsSortedBy, ofList, hdrive, isSortedSpec]
      exact isSortedBy_aux order rest b (order b a)

/-- Claim C9: IsSortedBy equals the specification classifier on every
list-backed sequence — 1 on empty and single-element sequences, otherwise
the value of the first adjacent comparison (new element compared against
the previous one) is recorded as the established sign, 0 results as soon as
a later adjacent comparison differs from it, and the established sign is
returned otherwise; in particular IsSorted classifies [1,2,3,4] as 1,
[4,3,2,1] as -1 and [1,2,4,3] as 0. -/
theorem C9_is_sorted :
    (∀ (α : Type) (order : α → α → Int) (xs : List α),
        IsSortedBy (ofList xs) order = isSortedSpec order xs)
    ∧ IsSorted (ofList ([] : List Int)) = 1
    ∧ IsSorted (ofList [(5 : Int)]) = 1
    ∧ IsSorted (ofList [(1 : Int), 2, 3, 4]) = 1
    ∧ IsSorted (ofList [(4 : Int), 3, 2, 1]) = -1
    ∧ IsSorted (ofList [(1 : Int), 2, 4, 3]) = 0 := by
  refine ⟨fun α order xs => isSortedBy_eq_spec order xs, ?_, ?_, ?_, ?_, ?_⟩ <;> decide

/-- Claim C10: on every sequence of length ≥ 2 whose adjacent comparisons
all return sign 0 (e.g. a run of all-equal elements), IsSortedBy returns 0
(not monotonic), not 1: the zero sign established by the first comparison
is returned as the final verdict. -/
theorem C10_all_equal_zero (α : Type) (xs : List α) (order : α → α → Int)
    (h2 : 2 ≤ xs.length) (hz : List.Chain' (fun p q => order q p = 0) xs) :
    IsSortedBy (ofList xs) order = 0 := by
  cases xs with
  | nil => simp at h2
  | cons a t =>
    cases t with
    | nil => simp at h2
    | cons b rest =>
      rw [isSortedBy_eq_spec]
      have hba : order b a = 0 := (List.chain'_cons.mp hz).1
      simp only [isSortedSpec, hba]
      split <;> rfl

/-- Witness for C10: the all-equal run [7, 7, 7] classifies as 0 under the
default comparator. -/
theorem C10_all_equal_zero_witness :
    IsSortedBy (ofList [(7 : Int), 7, 7]) cmpCompare = 0 :=
  C10_all_equal_zero Int [7, 7, 7] cmpCompare (by decide)
    (by
      have h77 : cmpCompare (7 : Int) 7 = 0 := by norm_num [cmpCompare]
      simp [List.chain'_cons, h77])

end ik
